import Mathlib

/-!
Verification of the eigen-compute core of DeepH-dock
(`deepx_dock/compute/eigen/matrix.py` and
`deepx_dock/compute/eigen/hamiltonian.py`).

Shallow embedding conventions:
* a reduced-coordinate point is `Fin 3 → ℝ`, a lattice displacement is
  `Fin 3 → ℤ`;
* `numpy` arrays of shape `(Nk, 3)`, `(NR, 3)`, `(NR, Nb, Nb)` become
  functions out of `Fin`-types; the row-major flattening of an
  `(NR, Nb, Nb)` array to `(NR, Nb*Nb)` is modelled with the column index
  `Fin Nb × Fin Nb` (in bijection with `Fin (Nb*Nb)`), so `np.matmul`
  becomes `Matrix` multiplication over that index;
* complex floating-point arithmetic is idealised as exact arithmetic in `ℂ`.
-/

open Matrix
open scoped ComplexConjugate

/-- Entry of `np.matmul(ks, Rs.T)`: dot product of a reduced-coordinate
point with an integer lattice displacement. -/
def dotKR (k : Fin 3 → ℝ) (R : Fin 3 → ℤ) : ℝ :=
∑ i, k i * (R i : ℝ)

/-- Entry of `np.matmul(Rs, ks.T)`: dot product of an integer lattice
displacement with a reduced-coordinate point. -/
def dotRK (R : Fin 3 → ℤ) (k : Fin 3 → ℝ) : ℝ :=
∑ i, (R i : ℝ) * k i

/-- The forward phase matrix of `AOMatrixR.r2k` and `HamiltonianObj._r2k`:
`phase = np.exp(2j * np.pi * np.matmul(ks, Rs.T))`, entry
`Φ[k, R] = exp(i·2π·ks[k]·Rs[R])`. -/
noncomputable def phaseMat {Nk NR : ℕ} (ks : Fin Nk → Fin 3 → ℝ)
    (Rs : Fin NR → Fin 3 → ℤ) : Matrix (Fin Nk) (Fin NR) ℂ :=
fun k R => Complex.exp (2 * Real.pi * Complex.I * (dotKR (ks k) (Rs R) : ℝ))

/-- The inverse phase matrix of `AOMatrixK.k2r`:
`phase = np.exp(-2j * np.pi * np.matmul(Rs, ks.T))`, entry
`PhiInv[R, k] = exp(-i·2π·Rs[R]·ks[k])`. -/
noncomputable def phaseMatInv {NR Nk : ℕ} (Rs : Fin NR → Fin 3 → ℤ)
    (ks : Fin Nk → Fin 3 → ℝ) : Matrix (Fin NR) (Fin Nk) ℂ :=
fun R k => Complex.exp (-(2 * Real.pi * Complex.I) * (dotRK (Rs R) (ks k) : ℝ))

/-- Row-major flattening `mats.reshape(N, -1)` of an `(N, Nb, Nb)` array to
an `(N, Nb·Nb)` matrix, with the flat column index modelled as a pair. -/
def flattenMats {N Nb : ℕ} (mats : Fin N → Matrix (Fin Nb) (Fin Nb) ℂ) :
    Matrix (Fin N) (Fin Nb × Fin Nb) ℂ :=
fun R p => mats R p.1 p.2

/-- Real-space operator `AOMatrixR`: lattice displacements `Rs` of shape
`(N_R, 3)` and real-space matrices `MRs` of shape `(N_R, N_b, N_b)`. -/
structure AOMatrixR (NR Nb : ℕ) where
  Rs : Fin NR → Fin 3 → ℤ
  MRs : Fin NR → Matrix (Fin Nb) (Fin Nb) ℂ

/-- Method `AOMatrixR.r2k`: forward Bloch transform. Computes the phase matrix,
flattens `MRs` to `(N_R, N_b·N_b)`, left-multiplies by the phase matrix and
reshapes the `(N_k, N_b·N_b)` product back to `(N_k, N_b, N_b)`. -/
noncomputable def AOMatrixR.r2k {NR Nb : ℕ} (self : AOMatrixR NR Nb) {Nk : ℕ}
    (ks : Fin Nk → Fin 3 → ℝ) : Fin Nk → Matrix (Fin Nb) (Fin Nb) ℂ :=
fun k i j => (phaseMat ks self.Rs * flattenMats self.MRs) k (i, j)

/-- Function `HamiltonianObj._r2k`: textually the same forward Bloch transform as
`AOMatrixR.r2k`, as a static function of `(ks, Rijk_list, mats)`. -/
noncomputable def HamiltonianObj_r2k {Nk NR Nb : ℕ} (ks : Fin Nk → Fin 3 → ℝ)
    (Rijk_list : Fin NR → Fin 3 → ℤ)
    (mats : Fin NR → Matrix (Fin Nb) (Fin Nb) ℂ) :
    Fin Nk → Matrix (Fin Nb) (Fin Nb) ℂ :=
fun k i j => (phaseMat ks Rijk_list * flattenMats mats) k (i, j)

/-- Reciprocal-space operator `AOMatrixK`: reciprocal points `ks` of shape
`(N_k, 3)` and reciprocal matrices `MKs` of shape `(N_k, N_b, N_b)`. -/
structure AOMatrixK (Nk Nb : ℕ) where
  ks : Fin Nk → Fin 3 → ℝ
  MKs : Fin Nk → Matrix (Fin Nb) (Fin Nb) ℂ

/-- The default integration weights of `AOMatrixK.k2r`:
`np.ones(len(ks)) / len(ks)`, the uniform weights `1/N_k`. -/
noncomputable def defaultWeights (Nk : ℕ) : Fin Nk → ℝ :=
fun _ => 1 / (Nk : ℝ)

/-- Row scaling `MKs_flat * weights[:, None]`: row `k` of the flattened
reciprocal matrices is multiplied by `weights[k]`. -/
def scaleRows {Nk Nb : ℕ} (weights : Fin Nk → ℝ)
    (M : Matrix (Fin Nk) (Fin Nb × Fin Nb) ℂ) :
    Matrix (Fin Nk) (Fin Nb × Fin Nb) ℂ :=
fun k p => M k p * (weights k : ℂ)

/-- Method `AOMatrixK.k2r` with an explicit weights argument: each flattened
reciprocal matrix row `k` is scaled by `weights[k]`
(`MKs_flat * weights[:, None]`), then contracted with the conjugated-sign
phase matrix and reshaped back to `(N_R, N_b, N_b)`. -/
noncomputable def AOMatrixK.k2r {Nk Nb : ℕ} (self : AOMatrixK Nk Nb) {NR : ℕ}
    (Rs : Fin NR → Fin 3 → ℤ) (weights : Fin Nk → ℝ) :
    Fin NR → Matrix (Fin Nb) (Fin Nb) ℂ :=
fun R i j =>
  (phaseMatInv Rs self.ks * scaleRows weights (flattenMats self.MKs)) R (i, j)

/-- Method `AOMatrixK.k2r` with the weights argument omitted (`weights=None`):
the uniform default weights are used. -/
noncomputable def AOMatrixK.k2rDefault {Nk Nb : ℕ} (self : AOMatrixK Nk Nb)
    {NR : ℕ} (Rs : Fin NR → Fin 3 → ℤ) : Fin NR → Matrix (Fin Nb) (Fin Nb) ℂ :=
self.k2r Rs (defaultWeights Nk)

section TransformLemmas

variable {Nk NR Nb : ℕ}

/-- Entrywise form of the forward transform: the flatten/matmul/reshape
pipeline computes, at each point `k`, the phase-weighted sum over
displacements. -/
lemma r2k_apply (op : AOMatrixR NR Nb) (ks : Fin Nk → Fin 3 → ℝ)
    (k : Fin Nk) (i j : Fin Nb) :
    op.r2k ks k i j = ∑ R, phaseMat ks op.Rs k R * op.MRs R i j := by
  simp [AOMatrixR.r2k, Matrix.mul_apply, flattenMats]

/-- Entrywise form of `HamiltonianObj._r2k`. -/
lemma HamiltonianObj_r2k_apply (ks : Fin Nk → Fin 3 → ℝ)
    (Rijk_list : Fin NR → Fin 3 → ℤ)
    (mats : Fin NR → Matrix (Fin Nb) (Fin Nb) ℂ) (k : Fin Nk) (i j : Fin Nb) :
    HamiltonianObj_r2k ks Rijk_list mats k i j
      = ∑ R, phaseMat ks Rijk_list k R * mats R i j := by
  simp [HamiltonianObj_r2k, Matrix.mul_apply, flattenMats]

/-- Entrywise form of the inverse transform. -/
lemma k2r_apply (op : AOMatrixK Nk Nb) (Rs : Fin NR → Fin 3 → ℤ)
    (weights : Fin Nk → ℝ) (R : Fin NR) (i j : Fin Nb) :
    op.k2r Rs weights R i j
      = ∑ k, phaseMatInv Rs op.ks R k * (op.MKs k i j * (weights k : ℂ)) := by
  simp [AOMatrixK.k2r, Matrix.mul_apply, flattenMats, scaleRows]

end TransformLemmas

/-- C1: the forward Bloch transform (`AOMatrixR.r2k` and
`HamiltonianObj._r2k`) returns exactly the array obtained by forming the
phase matrix `Φ[k, R] = exp(i·2π·points[k]·displacements[R])`, flattening
the real-space matrices to `N_R × (N_b·N_b)`, left-multiplying by `Φ` and
reshaping; entrywise, `result[k] = ∑ R, Φ[k, R] · realMatrices[R]` for
every point index `k`. -/
theorem r2k_eq_phase_weighted_sum (Nk NR Nb : ℕ) (ks : Fin Nk → Fin 3 → ℝ)
    (Rs : Fin NR → Fin 3 → ℤ) (MRs : Fin NR → Matrix (Fin Nb) (Fin Nb) ℂ)
    (k : Fin Nk) (i j : Fin Nb) :
    (AOMatrixR.mk Rs MRs).r2k ks k i j
        = ∑ R, Complex.exp (2 * Real.pi * Complex.I * (dotKR (ks k) (Rs R) : ℝ))
            * MRs R i j
      ∧ HamiltonianObj_r2k ks Rs MRs k i j
        = ∑ R, Complex.exp (2 * Real.pi * Complex.I * (dotKR (ks k) (Rs R) : ℝ))
            * MRs R i j := by
  refine ⟨?_, ?_⟩
  · rw [r2k_apply]
    rfl
  · rw [HamiltonianObj_r2k_apply]
    rfl

/-- C5: each reciprocal matrix is pre-scaled by its integration weight
before contraction with the conjugated-sign phase, so
`result[R] = ∑ k, exp(-i·2π·Rs[R]·ks[k]) · weights[k] · MKs[k]`; and when
the weights argument is omitted the weights used are uniform `1/N_k`. -/
theorem k2r_eq_weighted_phase_sum (Nk NR Nb : ℕ) (ks : Fin Nk → Fin 3 → ℝ)
    (MKs : Fin Nk → Matrix (Fin Nb) (Fin Nb) ℂ) (Rs : Fin NR → Fin 3 → ℤ)
    (weights : Fin Nk → ℝ) (R : Fin NR) (i j : Fin Nb) :
    (AOMatrixK.mk ks MKs).k2r Rs weights R i j
        = ∑ k, Complex.exp (-(2 * Real.pi * Complex.I) * (dotRK (Rs R) (ks k) : ℝ))
            * (weights k : ℂ) * MKs k i j
      ∧ (AOMatrixK.mk ks MKs).k2rDefault Rs
          = (AOMatrixK.mk ks MKs).k2r Rs (fun _ => 1 / (Nk : ℝ)) := by
  refine ⟨?_, rfl⟩
  rw [k2r_apply]
  refine Finset.sum_congr rfl fun k _ => ?_
  simp only [phaseMatInv]
  ring

/-- Conjugating a forward phase factor flips the sign of the exponent. -/
lemma phaseMat_conj {Nk NR : ℕ} (ks : Fin Nk → Fin 3 → ℝ)
    (Rs : Fin NR → Fin 3 → ℤ) (k : Fin Nk) (R : Fin NR) :
    conj (phaseMat ks Rs k R)
      = Complex.exp (-(2 * Real.pi * Complex.I * (dotKR (ks k) (Rs R) : ℝ))) := by
  simp only [phaseMat]
  rw [← Complex.exp_conj]
  congr 1
  rw [RingHom.map_mul, RingHom.map_mul, RingHom.map_mul, Complex.conj_ofReal,
    Complex.conj_ofReal, Complex.conj_I]
  have h2 : (starRingEnd ℂ) 2 = 2 := by
    rw [Complex.conj_eq_iff_im]
    simp
  rw [h2]
  ring

/-- C4: for a point set whose phases are a left inverse to the forward phases
under the uniform default weights (Nyquist-adequate sampling), the inverse
transform with default weights recovers the original real-space matrices:
`AOMatrixK(points, op.r2k(points)).k2r(op.Rs)` equals `op.MRs`. -/
theorem k2r_r2k_roundtrip (Nk NR Nb : ℕ) (ks : Fin Nk → Fin 3 → ℝ)
    (Rs : Fin NR → Fin 3 → ℤ) (MRs : Fin NR → Matrix (Fin Nb) (Fin Nb) ℂ)
    (hNyq : ∀ R R' : Fin NR,
      ∑ k, (defaultWeights Nk k : ℂ) * phaseMatInv Rs ks R k * phaseMat ks Rs k R'
        = if R = R' then 1 else 0) :
    ∀ (R : Fin NR) (i j : Fin Nb),
      (AOMatrixK.mk ks ((AOMatrixR.mk Rs MRs).r2k ks)).k2rDefault Rs R i j
        = MRs R i j := by
  intro R i j
  show (AOMatrixK.mk ks ((AOMatrixR.mk Rs MRs).r2k ks)).k2r Rs (defaultWeights Nk) R i j
      = MRs R i j
  rw [k2r_apply]
  have hr : ∀ k : Fin Nk,
      (AOMatrixK.mk ks ((AOMatrixR.mk Rs MRs).r2k ks)).MKs k i j
        = ∑ R', phaseMat ks Rs k R' * MRs R' i j :=
    fun k => r2k_apply (AOMatrixR.mk Rs MRs) ks k i j
  simp only [hr]
  calc
    ∑ k, phaseMatInv Rs ks R k
        * ((∑ R', phaseMat ks Rs k R' * MRs R' i j) * (defaultWeights Nk k : ℂ))
      = ∑ k, ∑ R', (defaultWeights Nk k : ℂ) * phaseMatInv Rs ks R k
          * phaseMat ks Rs k R' * MRs R' i j := by
        refine Finset.sum_congr rfl fun k _ => ?_
        rw [Finset.sum_mul, Finset.mul_sum]
        refine Finset.sum_congr rfl fun R' _ => ?_
        ring
    _ = ∑ R', (∑ k, (defaultWeights Nk k : ℂ) * phaseMatInv Rs ks R k
          * phaseMat ks Rs k R') * MRs R' i j := by
        rw [Finset.sum_comm]
        refine Finset.sum_congr rfl fun R' _ => ?_
        rw [Finset.sum_mul]
    _ = ∑ R', (if R = R' then 1 else 0) * MRs R' i j := by
        refine Finset.sum_congr rfl fun R' _ => ?_
        rw [hNyq]
    _ = MRs R i j := by simp

/-- A single reciprocal point at the zone center. -/
def ksOne : Fin 1 → Fin 3 → ℝ :=
fun _ _ => 0

/-- A single zero lattice displacement. -/
def RsOne : Fin 1 → Fin 3 → ℤ :=
fun _ _ => 0

/-- A single concrete 1×1 real-space matrix. -/
noncomputable def MRsOne : Fin 1 → Matrix (Fin 1) (Fin 1) ℂ :=
fun _ _ _ => 5

/-- Witness for C4 at the concrete one-point, one-displacement input. -/
theorem k2r_r2k_roundtrip_witness :
    (AOMatrixK.mk ksOne ((AOMatrixR.mk RsOne MRsOne).r2k ksOne)).k2rDefault RsOne 0 0 0
      = MRsOne 0 0 0 := by
  refine k2r_r2k_roundtrip 1 1 1 ksOne RsOne MRsOne ?_ 0 0 0
  intro R R'
  have h : R = R' := Subsingleton.elim R R'
  simp [h, defaultWeights, phaseMatInv, phaseMat, dotKR, dotRK, ksOne, RsOne]

/-- C6: if the real-space matrices satisfy the Hermitian lattice symmetry
`M(R) = M(-R)ᴴ` (witnessed by a permutation of the displacement index
sending each displacement to its negation), then every reciprocal matrix
produced by the forward transform at every real point is Hermitian. -/
theorem r2k_preserves_hermitian (Nk NR Nb : ℕ) (ks : Fin Nk → Fin 3 → ℝ)
    (Rs : Fin NR → Fin 3 → ℤ) (MRs : Fin NR → Matrix (Fin Nb) (Fin Nb) ℂ)
    (σ : Equiv.Perm (Fin NR))
    (hR : ∀ (R : Fin NR) (i : Fin 3), Rs (σ R) i = -(Rs R i))
    (hM : ∀ R, MRs (σ R) = (MRs R)ᴴ) :
    ∀ k, ((AOMatrixR.mk Rs MRs).r2k ks k)ᴴ = (AOMatrixR.mk Rs MRs).r2k ks k := by
  intro k
  ext i j
  rw [Matrix.conjTranspose_apply, r2k_apply, r2k_apply]
  have hphase : ∀ R, phaseMat ks Rs k (σ R) = conj (phaseMat ks Rs k R) := by
    intro R
    rw [phaseMat_conj]
    simp only [phaseMat]
    have hdot : dotKR (ks k) (Rs (σ R)) = -(dotKR (ks k) (Rs R)) := by
      simp only [dotKR, hR]
      push_cast
      simp [mul_neg]
    rw [hdot]
    congr 1
    push_cast
    ring
  calc
    star (∑ R, phaseMat ks Rs k R * MRs R j i)
      = ∑ R, star (phaseMat ks Rs k R) * star (MRs R j i) := by
        rw [star_sum]
        refine Finset.sum_congr rfl fun R _ => ?_
        rw [star_mul']
    _ = ∑ R, phaseMat ks Rs k (σ R) * MRs (σ R) i j := by
        refine Finset.sum_congr rfl fun R _ => ?_
        rw [hphase, hM, Matrix.conjTranspose_apply, starRingEnd_apply]
    _ = ∑ R, phaseMat ks Rs k R * MRs R i j :=
        Equiv.sum_comp σ (fun R => phaseMat ks Rs k R * MRs R i j)

/-- A single 1×1 identity real-space matrix (Hermitian). -/
noncomputable def MRsId : Fin 1 → Matrix (Fin 1) (Fin 1) ℂ :=
fun _ => 1

/-- Witness for C6 at the concrete single-zero-displacement input with the
identity matrix and the identity permutation. -/
theorem r2k_preserves_hermitian_witness :
    ((AOMatrixR.mk RsOne MRsId).r2k ksOne 0)ᴴ = (AOMatrixR.mk RsOne MRsId).r2k ksOne 0 :=
r2k_preserves_hermitian 1 1 1 ksOne RsOne MRsId (Equiv.refl _)
  (by intro R i; simp [RsOne])
  (by intro R; simp [MRsId])
  0

/-!
Model of the per-point unit of `HamiltonianObj.diag`, `process_k` and of the
batch assembly. The external solvers `scipy.linalg.eigh` and
`scipy.sparse.linalg.eigsh` are not code of this repository; their raw
outputs enter the model as parameters, with their documented contracts
(`eigh` returns eigenvalues in ascending order; both return generalized
eigenpairs of `(H, S)`) as hypotheses where a claim needs them.
-/

/-- Function `np.sort` on a tuple of reals: compose with a sorting permutation. -/
noncomputable def npSort {m : ℕ} (vals : Fin m → ℝ) : Fin m → ℝ :=
vals ∘ Tuple.sort vals

/-- Step `idx = np.argsort(vals); vals[idx], vecs[:, idx]` — the sparse
full path of `process_k`: sort the eigenvalues and permute the
eigenvector columns by the same permutation. -/
noncomputable def processKSparseFull {n m : ℕ} (vals : Fin m → ℝ)
    (vecs : Matrix (Fin n) (Fin m) ℂ) : (Fin m → ℝ) × Matrix (Fin n) (Fin m) ℂ :=
(vals ∘ Tuple.sort vals, fun i j => vecs i (Tuple.sort vals j))

/-- The sparse bands-only path of `process_k`: `np.sort(vals)`. -/
noncomputable def processKSparseBands {m : ℕ} (vals : Fin m → ℝ) : Fin m → ℝ :=
npSort vals

/-- The dense bands-only path of `process_k`: the `eigh` eigenvalues are
returned as-is. -/
def processKDenseBands {n : ℕ} (vals : Fin n → ℝ) : Fin n → ℝ :=
vals

/-- The dense full path of `process_k`: the `eigh` pair is returned as-is. -/
def processKDenseFull {n : ℕ} (vals : Fin n → ℝ)
    (vecs : Matrix (Fin n) (Fin n) ℂ) : (Fin n → ℝ) × Matrix (Fin n) (Fin n) ℂ :=
(vals, vecs)

/-- Column `j` of `vecs` solves the generalized eigenproblem
`H·v = λ·S·v` with eigenvalue `lam`. -/
def IsGenEigenpair {n m : ℕ} (H S : Matrix (Fin n) (Fin n) ℂ) (lam : ℝ)
    (vecs : Matrix (Fin n) (Fin m) ℂ) (j : Fin m) : Prop :=
H.mulVec (fun i => vecs i j) = (lam : ℂ) • S.mulVec (fun i => vecs i j)

/-- C2: in every solver mode and regardless of `bands_only`, the eigenvalue
sequence returned by `process_k` is non-decreasing (for the dense paths by
the documented ascending-order contract of `scipy.linalg.eigh`, taken as a
hypothesis; for the sparse paths by the explicit sort), and in the sparse
full path the sorting permutation is applied identically to the
eigenvector columns, so each returned column is still a generalized
eigenpair of its paired eigenvalue. -/
theorem processK_sorted_and_paired (n m : ℕ) (H S : Matrix (Fin n) (Fin n) ℂ)
    (dvals : Fin n → ℝ) (dvecs : Matrix (Fin n) (Fin n) ℂ)
    (svals : Fin m → ℝ) (svecs : Matrix (Fin n) (Fin m) ℂ)
    (hdenseSorted : Monotone dvals)
    (hdensePair : ∀ j, IsGenEigenpair H S (dvals j) dvecs j)
    (hsparsePair : ∀ j, IsGenEigenpair H S (svals j) svecs j) :
    Monotone (processKSparseBands svals)
      ∧ Monotone (processKSparseFull svals svecs).1
      ∧ Monotone (processKDenseBands dvals)
      ∧ Monotone (processKDenseFull dvals dvecs).1
      ∧ (∀ j, IsGenEigenpair H S ((processKSparseFull svals svecs).1 j)
          (processKSparseFull svals svecs).2 j)
      ∧ (∀ j, IsGenEigenpair H S ((processKDenseFull dvals dvecs).1 j)
          (processKDenseFull dvals dvecs).2 j) := by
  refine ⟨Tuple.monotone_sort svals, Tuple.monotone_sort svals, hdenseSorted,
    hdenseSorted, fun j => ?_, fun j => hdensePair j⟩
  exact hsparsePair (Tuple.sort svals j)

/-- Witness for C2 on the concrete one-orbital problem `H = S = 1` with
eigenvalue `1` and eigenvector `(1)`. -/
theorem processK_sorted_and_paired_witness :
    Monotone (processKSparseBands (fun _ : Fin 1 => (1 : ℝ))) :=
(processK_sorted_and_paired 1 1 1 1 (fun _ => 1) 1 (fun _ => 1) 1
  (monotone_const)
  (by
    intro j
    show (1 : Matrix (Fin 1) (Fin 1) ℂ).mulVec _ = ((1 : ℝ) : ℂ) • (1 : Matrix (Fin 1) (Fin 1) ℂ).mulVec _
    simp)
  (by
    intro j
    show (1 : Matrix (Fin 1) (Fin 1) ℂ).mulVec _ = ((1 : ℝ) : ℂ) • (1 : Matrix (Fin 1) (Fin 1) ℂ).mulVec _
    simp)).1

/-- The instantaneous reciprocal matrix at one query point, as `process_k`
and `Sk_and_Hk` build it: `self._r2k(k[None, :], Rijk_list, mats)[0]` —
the batch transform applied to the length-1 batch, index 0 taken. -/
noncomputable def matKOf {NR Nb : ℕ} (Rijk_list : Fin NR → Fin 3 → ℤ)
    (mats : Fin NR → Matrix (Fin Nb) (Fin Nb) ℂ) (k : Fin 3 → ℝ) :
    Matrix (Fin Nb) (Fin Nb) ℂ :=
HamiltonianObj_r2k (fun _ : Fin 1 => k) Rijk_list mats 0

/-- The dense full-mode batch assembly of `HamiltonianObj.diag`: per-point
solver results `(vals, vecs) = solver (Hk, Sk)` are stacked with
`np.stack(vals, axis=1)` into shape `(N_b, N_k)` and
`np.stack(vecs, axis=2)` into shape `(N_b, N_b, N_k)`. The dense solver
(`scipy.linalg.eigh`) enters as the parameter `solver`. -/
noncomputable def diagDenseFull {NR Nb Nk : ℕ} (Rijk_list : Fin NR → Fin 3 → ℤ)
    (HR SR : Fin NR → Matrix (Fin Nb) (Fin Nb) ℂ)
    (solver : Matrix (Fin Nb) (Fin Nb) ℂ → Matrix (Fin Nb) (Fin Nb) ℂ →
      (Fin Nb → ℝ) × Matrix (Fin Nb) (Fin Nb) ℂ)
    (ks : Fin Nk → Fin 3 → ℝ) :
    (Fin Nb → Fin Nk → ℝ) × (Fin Nb → Fin Nb → Fin Nk → ℂ) :=
(fun b k => (solver (matKOf Rijk_list HR (ks k)) (matKOf Rijk_list SR (ks k))).1 b,
 fun i b k => (solver (matKOf Rijk_list HR (ks k)) (matKOf Rijk_list SR (ks k))).2 i b)

/-- The dense bands-only batch assembly of `HamiltonianObj.diag`: only the
eigenvalue-only solver (`eigh(..., eigvals_only=True)`) is invoked and only
the `(N_b, N_k)` eigenvalue stack is produced. -/
noncomputable def diagDenseBands {NR Nb Nk : ℕ} (Rijk_list : Fin NR → Fin 3 → ℤ)
    (HR SR : Fin NR → Matrix (Fin Nb) (Fin Nb) ℂ)
    (solverVals : Matrix (Fin Nb) (Fin Nb) ℂ → Matrix (Fin Nb) (Fin Nb) ℂ →
      (Fin Nb → ℝ))
    (ks : Fin Nk → Fin 3 → ℝ) : Fin Nb → Fin Nk → ℝ :=
fun b k => solverVals (matKOf Rijk_list HR (ks k)) (matKOf Rijk_list SR (ks k)) b

/-- C3: in dense mode with `bands_only = false`, `diag` returns the pair of
an `(N_b, N_k)`-shaped eigenvalue array (the shape is the Lean type
`Fin Nb → Fin Nk → ℝ`) and an `(N_b, N_b, N_k)`-shaped eigenvector array,
each per-point result sitting at the trailing-axis position of its query
point; with `bands_only = true` only the `(N_b, N_k)` eigenvalue array is
produced, from the eigenvalue-only solver, and it agrees with the
eigenvalue part of the full-mode result. -/
theorem diag_dense_shapes (NR Nb Nk : ℕ) (Rijk_list : Fin NR → Fin 3 → ℤ)
    (HR SR : Fin NR → Matrix (Fin Nb) (Fin Nb) ℂ)
    (solver : Matrix (Fin Nb) (Fin Nb) ℂ → Matrix (Fin Nb) (Fin Nb) ℂ →
      (Fin Nb → ℝ) × Matrix (Fin Nb) (Fin Nb) ℂ)
    (ks : Fin Nk → Fin 3 → ℝ) (b : Fin Nb) (i : Fin Nb) (k : Fin Nk) :
    (diagDenseFull Rijk_list HR SR solver ks).1 b k
        = (solver (matKOf Rijk_list HR (ks k)) (matKOf Rijk_list SR (ks k))).1 b
      ∧ (diagDenseFull Rijk_list HR SR solver ks).2 i b k
        = (solver (matKOf Rijk_list HR (ks k)) (matKOf Rijk_list SR (ks k))).2 i b
      ∧ diagDenseBands Rijk_list HR SR (fun Hk Sk => (solver Hk Sk).1) ks b k
        = (diagDenseFull Rijk_list HR SR solver ks).1 b k :=
⟨rfl, rfl, rfl⟩

/-- Method `HamiltonianObj.Sk_and_Hk` on a batch input (`k.ndim == 2`): the two
batch transforms, overlap first, Hamiltonian second. -/
noncomputable def SkAndHkBatch {NR Nb Nk : ℕ} (Rijk_list : Fin NR → Fin 3 → ℤ)
    (SR HR : Fin NR → Matrix (Fin Nb) (Fin Nb) ℂ) (ks : Fin Nk → Fin 3 → ℝ) :
    (Fin Nk → Matrix (Fin Nb) (Fin Nb) ℂ) × (Fin Nk → Matrix (Fin Nb) (Fin Nb) ℂ) :=
(HamiltonianObj_r2k ks Rijk_list SR, HamiltonianObj_r2k ks Rijk_list HR)

/-- Method `HamiltonianObj.Sk_and_Hk` on a single point (`k.ndim == 1`): the code
wraps the point as `k[None, :]`, runs the batch transforms, and unwraps
index `0` of each (`return Sk[0], Hk[0]`). -/
noncomputable def SkAndHkSingle {NR Nb : ℕ} (Rijk_list : Fin NR → Fin 3 → ℤ)
    (SR HR : Fin NR → Matrix (Fin Nb) (Fin Nb) ℂ) (k : Fin 3 → ℝ) :
    Matrix (Fin Nb) (Fin Nb) ℂ × Matrix (Fin Nb) (Fin Nb) ℂ :=
(HamiltonianObj_r2k (fun _ : Fin 1 => k) Rijk_list SR 0,
 HamiltonianObj_r2k (fun _ : Fin 1 => k) Rijk_list HR 0)

/-- C10: the single-point path of `Sk_and_Hk` is the batch-of-one path
followed by an unwrap at index 0, with the overlap matrix first and the
Hamiltonian second in both cases. -/
theorem SkAndHk_single_eq_batch_of_one (NR Nb : ℕ)
    (Rijk_list : Fin NR → Fin 3 → ℤ)
    (SR HR : Fin NR → Matrix (Fin Nb) (Fin Nb) ℂ) (k : Fin 3 → ℝ) :
    SkAndHkSingle Rijk_list SR HR k
      = ((SkAndHkBatch Rijk_list SR HR (fun _ : Fin 1 => k)).1 0,
         (SkAndHkBatch Rijk_list SR HR (fun _ : Fin 1 => k)).2 0) :=
rfl

/-- The per-point unit of work of `diag`: build `(H_k, S_k)` for one query
point and hand the pair to the solver. -/
noncomputable def processKUnit {NR Nb : ℕ} (Rijk_list : Fin NR → Fin 3 → ℤ)
    (HR SR : Fin NR → Matrix (Fin Nb) (Fin Nb) ℂ)
    (solver : Matrix (Fin Nb) (Fin Nb) ℂ → Matrix (Fin Nb) (Fin Nb) ℂ →
      (Fin Nb → ℝ) × Matrix (Fin Nb) (Fin Nb) ℂ)
    (k : Fin 3 → ℝ) : (Fin Nb → ℝ) × Matrix (Fin Nb) (Fin Nb) ℂ :=
solver (matKOf Rijk_list HR k) (matKOf Rijk_list SR k)

/-- Sequential execution (`k_process_num = 1`): the per-point units are
evaluated over the query batch in input order. -/
noncomputable def diagResultsSeq {NR Nb Nk : ℕ} (Rijk_list : Fin NR → Fin 3 → ℤ)
    (HR SR : Fin NR → Matrix (Fin Nb) (Fin Nb) ℂ)
    (solver : Matrix (Fin Nb) (Fin Nb) ℂ → Matrix (Fin Nb) (Fin Nb) ℂ →
      (Fin Nb → ℝ) × Matrix (Fin Nb) (Fin Nb) ℂ)
    (ks : Fin Nk → Fin 3 → ℝ) : Fin Nk → (Fin Nb → ℝ) × Matrix (Fin Nb) (Fin Nb) ℂ :=
fun i => processKUnit Rijk_list HR SR solver (ks i)

/-- Parallel execution (`k_process_num > 1`): the workers complete the
per-point units in some arbitrary order, modelled by a permutation
`order` of the query indices, and the gather writes each completed result
back at the position of its originating query point. `joblib.Parallel`
returns results in dispatch order, which this models. -/
noncomputable def diagResultsPar {NR Nb Nk : ℕ} (Rijk_list : Fin NR → Fin 3 → ℤ)
    (HR SR : Fin NR → Matrix (Fin Nb) (Fin Nb) ℂ)
    (solver : Matrix (Fin Nb) (Fin Nb) ℂ → Matrix (Fin Nb) (Fin Nb) ℂ →
      (Fin Nb → ℝ) × Matrix (Fin Nb) (Fin Nb) ℂ)
    (ks : Fin Nk → Fin 3 → ℝ) (order : Equiv.Perm (Fin Nk)) :
    Fin Nk → (Fin Nb → ℝ) × Matrix (Fin Nb) (Fin Nb) ℂ :=
fun i => (fun j => processKUnit Rijk_list HR SR solver (ks (order j))) (order.symm i)

/-- C7: for a fixed input, parallel execution under any completion order
produces exactly the sequential results in the same order, and the result
at each output position is the per-point unit evaluated at the query point
of that same input position — independent of execution order. -/
theorem diag_worker_count_invariance (NR Nb Nk : ℕ)
    (Rijk_list : Fin NR → Fin 3 → ℤ)
    (HR SR : Fin NR → Matrix (Fin Nb) (Fin Nb) ℂ)
    (solver : Matrix (Fin Nb) (Fin Nb) ℂ → Matrix (Fin Nb) (Fin Nb) ℂ →
      (Fin Nb → ℝ) × Matrix (Fin Nb) (Fin Nb) ℂ)
    (ks : Fin Nk → Fin 3 → ℝ) (order : Equiv.Perm (Fin Nk)) :
    diagResultsPar Rijk_list HR SR solver ks order
        = diagResultsSeq Rijk_list HR SR solver ks
      ∧ ∀ i, diagResultsSeq Rijk_list HR SR solver ks i
        = processKUnit Rijk_list HR SR solver (ks i) := by
  refine ⟨funext fun i => ?_, fun i => rfl⟩
  show processKUnit Rijk_list HR SR solver (ks (order (order.symm i))) = _
  rw [Equiv.apply_symm_apply]
  rfl

/-!
Model of `AOMatrixR.__init__` and of the thread-budget resolution in
`HamiltonianObj.diag`. For the constructor the arrays are modelled as
nested lists so that ill-shaped inputs are expressible; the error channel
an exception-raising constructor would use is an `Except`.
-/

/-- The error a shape-validating constructor would raise. -/
inductive MatrixInitError where
  | dimensionMismatch

/-- Untyped-shape view of an `AOMatrixR`: displacement rows and the
real-space matrices as nested lists. -/
structure AOMatrixRRaw where
  Rs : List (List ℤ)
  MRs : List (List (List ℂ))

/-- Constructor `AOMatrixR.__init__`: the source stores `Rs` and `MRs` as given, with
no shape validation of any kind, so construction always succeeds. -/
def AOMatrixRInit (Rs : List (List ℤ)) (MRs : List (List (List ℂ))) :
    Except MatrixInitError AOMatrixRRaw :=
Except.ok ⟨Rs, MRs⟩

/-- Counterexample to C8: one displacement paired with two matrices, each
a non-square 1×2 matrix, yet the constructor succeeds rather than failing
with a dimension-mismatch error. -/
theorem AOMatrixRInit_no_validation_counterexample :
    ([[(0 : ℤ), 0, 0]].length ≠ ([[[(1 : ℂ), 2]], [[3, 4]]] : List (List (List ℂ))).length)
      ∧ AOMatrixRInit [[(0 : ℤ), 0, 0]] [[[(1 : ℂ), 2]], [[3, 4]]]
        ≠ Except.error MatrixInitError.dimensionMismatch := by
  refine ⟨by decide, ?_⟩
  intro h
  exact Except.noConfusion h

/-- C8 amended: construction of a real-space lattice operator performs no
validation at all — for every input, well-shaped or not, it succeeds and
stores the displacements and matrices exactly as given. -/
theorem AOMatrixRInit_always_succeeds (Rs : List (List ℤ))
    (MRs : List (List (List ℂ))) :
    AOMatrixRInit Rs MRs = Except.ok ⟨Rs, MRs⟩ :=
rfl

/-- The thread-count resolution of `HamiltonianObj.diag`:
`thread_num = int(os.environ.get('OPENBLAS_NUM_THREADS', "1"))` when the
`thread_num` argument is `None`. The environment lookup is modelled as an
`Option ℕ` holding the parsed value of `OPENBLAS_NUM_THREADS` when set. -/
def resolveThreadCount (thread_num : Option ℕ) (openblasEnv : Option ℕ) : ℕ :=
thread_num.getD (openblasEnv.getD 1)

/-- The BLAS thread cap in force while the per-point unit at batch position
`pointIdx` runs: the single `threadpool_limits` block wraps the whole batch
loop, so the cap is the once-resolved thread count, independent of the
point index and of `k_process_num`. -/
def diagPointCap (k_process_num : ℕ) (thread_num : Option ℕ)
    (openblasEnv : Option ℕ) (pointIdx : ℕ) : ℕ :=
resolveThreadCount thread_num openblasEnv

/-- Counterexample to C9: with `k_process_num = 4 > 1` and no `thread_num`
override, but `OPENBLAS_NUM_THREADS=4` in the environment, the cap applied
is 4, not 1. -/
theorem diagPointCap_not_always_one :
    1 < 4 ∧ diagPointCap 4 none (some 4) 0 = 4 ∧ diagPointCap 4 none (some 4) 0 ≠ 1 := by
  refine ⟨by decide, rfl, by decide⟩

/-- C9 amended: with no `thread_num` override the cap equals the value of
`OPENBLAS_NUM_THREADS` when that environment variable is set and 1 when it
is unset; an explicit `thread_num` wins over the environment; and one cap
value is in force uniformly across the whole batch, identical at every
point index and for every worker count. -/
theorem diagPointCap_env_default_and_uniform (p q : ℕ) (env : Option ℕ)
    (i j : ℕ) (t : ℕ) :
    diagPointCap p none env i = env.getD 1
      ∧ diagPointCap p none none i = 1
      ∧ diagPointCap p (some t) env i = t
      ∧ diagPointCap p none env i = diagPointCap q none env j :=
⟨rfl, rfl, rfl, rfl⟩
